import Mathlib

/-!
Verification of the securities ingestion / reconciliation / analytics engine.

The development shallowly embeds the Go sources of the repository:
the `securities` package (data model: `SecurityQuotes`, `QuotesForDate`,
`LastQuotes`, `QuotesOfInterval`), the `securitiesSQL` package (the SQL store:
`SecurityExists`, `SecurityQuotesExist`, `UpdateSecurityQuotes`,
`UpdateAllSecuritiesLastQuotes`, `collectErrors`, `GetSecurityData`), the
`moex` market-data client (`GetSecurityQuotes`, `GetQuotesForDate`) and the
analytics loops of `main.go` (`getSecurityDataHandler`, `securityListHandler`).

Modelling conventions:
* `time.Time` values are timestamps in `Nat` (only their ordering matters);
  calendar days in the pagination of `GetQuotesForDate` are `Int`, because the
  code steps to the previous day without a lower bound.
* Go `float64` prices are modelled as `ℚ`; the code never relies on rounding
  of binary floating point in the verified claims, only on field arithmetic
  and on explicit zero-divisor guards.
* The SQL store is a pair of lists of rows mirroring the two tables
  `securities(id, name, type, currency)` and
  `security_quotes(security, begin, end, interv, open, close, high, low)`.
* Concurrent fan-out (goroutine per row joined by a `WaitGroup`) is modelled
  by quantifying over an arbitrary arrival permutation of the produced rows.
-/

namespace SecuritiesProject

/-! ## Data model: the `securities` package -/

/-- SecurityType mirrors `securities.SecurityType` (a Go string type). -/
abbrev SecurityType := String

/-- Constant `securities.UnknownType`. -/
def unknownType : SecurityType := "unknown"

/-- Constant `securities.Share`. -/
def shareType : SecurityType := "share"

/-- Constant `securities.ETF`. -/
def etfType : SecurityType := "etf"

/-- Constant `securities.Bond`. -/
def bondType : SecurityType := "bond"

/-- Constant `securities.Currency`. -/
def currencyType : SecurityType := "currency"

/-- SecurityCurrency mirrors `securities.SecurityCurrency` (a Go string type). -/
abbrev SecurityCurrency := String

/-- Constant `securities.UnknownCurrency`. -/
def unknownCurrency : SecurityCurrency := "unknown"

/-- Constant `securities.RUB`. -/
def rubCurrency : SecurityCurrency := "RUB"

/-- QuotesInterval mirrors `securities.QuotesInterval` (a Go int type). -/
abbrev QuotesInterval := Int

/-- Constant `securities.IntervalDay` (= 24). -/
def intervalDay : QuotesInterval := 24

/-- SecurityQuotes mirrors the struct `securities.SecurityQuotes`.
Timestamps `Begin`/`End` are modelled as `Nat`; prices as `ℚ`.
The Go field `End` is called `qend` (`end` is reserved in Lean) and the
price fields `Open`/`Close`/`High`/`Low` get a `Price` suffix
(`open` is reserved in Lean). -/
structure SecurityQuotes where
  interval : QuotesInterval
  begin : Nat
  qend : Nat
  openPrice : ℚ
  closePrice : ℚ
  highPrice : ℚ
  lowPrice : ℚ
  deriving DecidableEq

/-- Zero value of `securities.SecurityQuotes` (`var quotes SecurityQuotes`). -/
def zeroQuotes : SecurityQuotes :=
  { interval := 0, begin := 0, qend := 0
    openPrice := 0, closePrice := 0, highPrice := 0, lowPrice := 0 }

/-- QuotesOfInterval mirrors `Security.QuotesOfInterval`: keep exactly the
quotes whose `Interval` equals the requested one, preserving order. -/
def quotesOfInterval (quotes : List SecurityQuotes) (interval : QuotesInterval) :
    List SecurityQuotes :=
  quotes.filter (fun q => decide (q.interval = interval))

/-- Loop body of `Security.QuotesForDate`: the accumulator starts as the zero
value and a quote `q` replaces it unless `q.Interval != interval`,
`q.End.After(date)` or `quotes.End.After(q.End)`. -/
def quotesForDateLoop (interval : QuotesInterval) (date : Nat)
    (acc : SecurityQuotes) : List SecurityQuotes → SecurityQuotes
  | [] => acc
  | q :: qs =>
    if q.interval ≠ interval ∨ date < q.qend ∨ q.qend < acc.qend then
      quotesForDateLoop interval date acc qs
    else
      quotesForDateLoop interval date q qs

/-- QuotesForDate mirrors `Security.QuotesForDate`. -/
def quotesForDate (quotes : List SecurityQuotes) (interval : QuotesInterval)
    (date : Nat) : SecurityQuotes :=
  quotesForDateLoop interval date zeroQuotes quotes

/-- Timestamp of `time.Date(3000, 1, 1, 0, 0, 0, 0, time.UTC)` in seconds. -/
def year3000 : Nat := 32503680000

/-- LastQuotes mirrors `Security.LastQuotes`: `QuotesForDate` at 3000-01-01. -/
def lastQuotes (quotes : List SecurityQuotes) (interval : QuotesInterval) :
    SecurityQuotes :=
  quotesForDate quotes interval year3000

/-! ## The SQL store -/

/-- Row of the `securities` table. -/
structure SecRow where
  id : String
  name : String
  sType : SecurityType
  currency : SecurityCurrency
  deriving DecidableEq

/-- Row of the `security_quotes` table.  The Go column `end` is called
`qend` and the price columns get a `Price` suffix, as in `SecurityQuotes`. -/
structure QuoteRow where
  security : String
  begin : Nat
  qend : Nat
  interv : QuotesInterval
  openPrice : ℚ
  closePrice : ℚ
  highPrice : ℚ
  lowPrice : ℚ
  deriving DecidableEq

/-- The persisted store: the two tables of the database schema. -/
structure Store where
  securities : List SecRow
  quotes : List QuoteRow
  deriving DecidableEq

/-- SecurityExists mirrors the later implementation of
`securitiesSQL.SecurityExists`: validate the key, then query
`SELECT id FROM securities WHERE id = ? AND type = ?` and report whether a
row exists. -/
def securityExists (store : Store) (id : String) (sType : SecurityType) :
    Except String Bool :=
  if id = "" then
    .error "security has no id"
  else if sType = "" ∨ sType = unknownType then
    .error "security has no type or type is unknown"
  else
    .ok (store.securities.any (fun r => decide (r.id = id) && decide (r.sType = sType)))

/-- Scan loop of the earlier `securitiesSQL.SecurityExists`: walk the id
column returned by `SELECT id FROM securities WHERE type = "..."` and return
true at the first id equal to the requested one. -/
def scanForId (id : String) : List String → Bool
  | [] => false
  | x :: xs => if x = id then true else scanForId id xs

/-- OldSecurityExists mirrors the earlier implementation of
`securitiesSQL.SecurityExists`: validate the key, select the ids of all
securities of the given type, and compare each id against the requested one
in Go. -/
def oldSecurityExists (store : Store) (id : String) (sType : SecurityType) :
    Except String Bool :=
  if id = "" then
    .error "security has no id"
  else if sType = "" ∨ sType = unknownType then
    .error "security has no type or type is unknown"
  else
    .ok (scanForId id ((store.securities.filter (fun r => decide (r.sType = sType))).map (fun r => r.id)))

/-- Helper for C9: the scan over the ids of one type finds the id exactly
when a row with that id and type exists. -/
theorem scanForId_filter_eq_any (store : List SecRow) (id : String)
    (sType : SecurityType) :
    scanForId id ((store.filter (fun r => decide (r.sType = sType))).map (fun r => r.id)) =
      store.any (fun r => decide (r.id = id) && decide (r.sType = sType)) := by
  induction store with
  | nil => rfl
  | cons r rs ih =>
    by_cases hty : r.sType = sType
    · by_cases hid : r.id = id
      · simp [List.filter_cons, List.any_cons, hty, hid, scanForId]
      · simp [List.filter_cons, List.any_cons, hty, hid, scanForId, ih]
    · simp [List.filter_cons, List.any_cons, hty, ih]

/-- C9: the two implementations of `SecurityExists` found in the source — the
earlier one that selects the ids of all securities of the given type and
compares each against the requested id in Go, and the later one that queries
directly by id and type — are observationally equivalent: on every store
state, security id and security type they return the same result, and in
particular they reject exactly the same inputs (empty id, empty or unknown
type) with the same error before touching the store. -/
theorem securityExists_old_new_equivalent (store : Store) (id : String)
    (sType : SecurityType) :
    oldSecurityExists store id sType = securityExists store id sType := by
  unfold oldSecurityExists securityExists
  by_cases hid : id = ""
  · simp [hid]
  · by_cases hty : sType = "" ∨ sType = unknownType
    · simp [hid, hty]
    · simp only [hid, hty, if_neg, if_false]
      rw [scanForId_filter_eq_any]

/-- Witness for C9 at a concrete store and key. -/
theorem securityExists_old_new_equivalent_witness :
    oldSecurityExists ⟨[⟨"GAZP", "", "share", "RUB"⟩], []⟩ "GAZP" "share" =
      securityExists ⟨[⟨"GAZP", "", "share", "RUB"⟩], []⟩ "GAZP" "share" :=
  securityExists_old_new_equivalent ⟨[⟨"GAZP", "", "share", "RUB"⟩], []⟩ "GAZP" "share"

/-- Helper for C10: a quote that does not match the interval or lies after the
date is always skipped, whatever the accumulator. -/
theorem quotesForDateLoop_of_no_match (interval : QuotesInterval) (date : Nat)
    (acc : SecurityQuotes) (qs : List SecurityQuotes)
    (h : ∀ q ∈ qs, ¬(q.interval = interval ∧ q.qend ≤ date)) :
    quotesForDateLoop interval date acc qs = acc := by
  induction qs with
  | nil => rfl
  | cons q qs ih =>
    have hq := h q (List.mem_cons_self q qs)
    have hskip : q.interval ≠ interval ∨ date < q.qend ∨ q.qend < acc.qend := by
      by_cases h1 : q.interval = interval
      · exact Or.inr (Or.inl (Nat.lt_of_not_le (fun hle => hq ⟨h1, hle⟩)))
      · exact Or.inl h1
    rw [quotesForDateLoop, if_pos hskip]
    exact ih (fun p hp => h p (List.mem_cons_of_mem _ hp))

/-- Helper for C10: once the accumulator is a quote matching the interval whose
end is on or before the date, the loop keeps such a quote, never decreases its
end, and ends with an end at least as large as every matching quote's. -/
theorem quotesForDateLoop_invariant (interval : QuotesInterval) (date : Nat)
    (qs : List SecurityQuotes) :
    ∀ acc : SecurityQuotes, acc.interval = interval → acc.qend ≤ date →
      ((quotesForDateLoop interval date acc qs = acc ∨
          quotesForDateLoop interval date acc qs ∈ qs) ∧
        (quotesForDateLoop interval date acc qs).interval = interval ∧
        (quotesForDateLoop interval date acc qs).qend ≤ date ∧
        acc.qend ≤ (quotesForDateLoop interval date acc qs).qend ∧
        ∀ q ∈ qs, q.interval = interval → q.qend ≤ date →
          q.qend ≤ (quotesForDateLoop interval date acc qs).qend) := by
  induction qs with
  | nil =>
    intro acc hi hd
    exact ⟨Or.inl rfl, hi, hd, le_refl _, by simp⟩
  | cons q qs ih =>
    intro acc hi hd
    by_cases hskip : q.interval ≠ interval ∨ date < q.qend ∨ q.qend < acc.qend
    · rw [quotesForDateLoop, if_pos hskip]
      obtain ⟨hmem, hint, hle, hacc, hall⟩ := ih acc hi hd
      refine ⟨?_, hint, hle, hacc, ?_⟩
      · rcases hmem with h | h
        · exact Or.inl h
        · exact Or.inr (List.mem_cons_of_mem _ h)
      · intro p hp hpint hpd
        rcases List.mem_cons.mp hp with rfl | hp'
        · rcases hskip with h1 | h2 | h3
          · exact absurd hpint h1
          · omega
          · exact le_trans (le_of_lt h3) hacc
        · exact hall p hp' hpint hpd
    · push_neg at hskip
      obtain ⟨h1, h2, h3⟩ := hskip
      rw [quotesForDateLoop, if_neg (by push_neg; exact ⟨h1, h2, h3⟩)]
      obtain ⟨hmem, hint, hle, hacc, hall⟩ := ih q h1 h2
      refine ⟨?_, hint, hle, le_trans h3 hacc, ?_⟩
      · rcases hmem with h | h
        · exact Or.inr (by rw [h]; exact List.mem_cons_self q qs)
        · exact Or.inr (List.mem_cons_of_mem _ h)
      · intro p hp hpint hpd
        rcases List.mem_cons.mp hp with rfl | hp'
        · exact hacc
        · exact hall p hp' hpint hpd

/-- C10: `QuotesForDate` is total and never fails.  If at least one quote of
the requested interval has an end timestamp not after the date, the result is
such a quote with the maximal end timestamp; if no quote qualifies, the result
is the zero-valued quote (so a caller reading a price for a date with no data
observes `Close = 0`); and `LastQuotes` is exactly `QuotesForDate` at
3000-01-01. -/
theorem quotesForDate_total_and_max (qs : List SecurityQuotes)
    (interval : QuotesInterval) (date : Nat) :
    ((∃ q ∈ qs, q.interval = interval ∧ q.qend ≤ date) →
        (quotesForDate qs interval date ∈ qs ∧
          (quotesForDate qs interval date).interval = interval ∧
          (quotesForDate qs interval date).qend ≤ date ∧
          ∀ q ∈ qs, q.interval = interval → q.qend ≤ date →
            q.qend ≤ (quotesForDate qs interval date).qend)) ∧
      ((∀ q ∈ qs, ¬(q.interval = interval ∧ q.qend ≤ date)) →
        quotesForDate qs interval date = zeroQuotes ∧ zeroQuotes.closePrice = 0) ∧
      lastQuotes qs interval = quotesForDate qs interval year3000 := by
  refine ⟨?_, ?_, rfl⟩
  · induction qs with
    | nil => rintro ⟨q, hq, -⟩; exact absurd hq (List.not_mem_nil q)
    | cons q qs ih =>
      intro hex
      by_cases hgood : q.interval = interval ∧ q.qend ≤ date
      · have hnoskip : ¬(q.interval ≠ interval ∨ date < q.qend ∨ q.qend < zeroQuotes.qend) := by
          push_neg
          exact ⟨hgood.1, hgood.2, Nat.zero_le _⟩
        have hstep : quotesForDate (q :: qs) interval date =
            quotesForDateLoop interval date q qs := by
          rw [quotesForDate, quotesForDateLoop, if_neg hnoskip]
        obtain ⟨hmem, hint, hle, hacc, hall⟩ :=
          quotesForDateLoop_invariant interval date qs q hgood.1 hgood.2
        rw [hstep]
        refine ⟨?_, hint, hle, ?_⟩
        · rcases hmem with h | h
          · rw [h]; exact List.mem_cons_self q qs
          · exact List.mem_cons_of_mem _ h
        · intro p hp hpint hpd
          rcases List.mem_cons.mp hp with rfl | hp'
          · exact hacc
          · exact hall p hp' hpint hpd
      · have hskip : q.interval ≠ interval ∨ date < q.qend ∨ q.qend < zeroQuotes.qend := by
          by_cases h1 : q.interval = interval
          · exact Or.inr (Or.inl (Nat.lt_of_not_le (fun hle => hgood ⟨h1, hle⟩)))
          · exact Or.inl h1
        have hstep : quotesForDate (q :: qs) interval date =
            quotesForDate qs interval date := by
          rw [quotesForDate, quotesForDateLoop, if_pos hskip]; rfl
        have hex' : ∃ p ∈ qs, p.interval = interval ∧ p.qend ≤ date := by
          obtain ⟨p, hp, hpp⟩ := hex
          rcases List.mem_cons.mp hp with rfl | hp'
          · exact absurd hpp hgood
          · exact ⟨p, hp', hpp⟩
        obtain ⟨hmem, hint, hle, hall⟩ := ih hex'
        rw [hstep]
        exact ⟨List.mem_cons_of_mem _ hmem, hint, hle, fun p hp hpint hpd => by
          rcases List.mem_cons.mp hp with rfl | hp'
          · exact absurd ⟨hpint, hpd⟩ hgood
          · exact hall p hp' hpint hpd⟩
  · intro h
    exact ⟨quotesForDateLoop_of_no_match interval date zeroQuotes qs h, rfl⟩

/-- Witness for C10 at a concrete input: a single matching day quote is
returned (and its end is maximal among the matching quotes). -/
theorem quotesForDate_total_and_max_witness :
    quotesForDate [⟨24, 5, 10, 1, 2, 3, 4⟩] 24 100 ∈
      [(⟨24, 5, 10, 1, 2, 3, 4⟩ : SecurityQuotes)] :=
  ((quotesForDate_total_and_max [⟨24, 5, 10, 1, 2, 3, 4⟩] 24 100).1
    ⟨⟨24, 5, 10, 1, 2, 3, 4⟩, by decide, by decide, by decide⟩).1

/-! ## Reconciliation engine: `UpdateSecurityQuotes` (ReplaceRange) -/

/-- SecurityQuotesExist mirrors `securitiesSQL.SecurityQuotesExist`:
`SELECT * FROM security_quotes WHERE security = ? AND begin = ? AND interv = ?`
reports whether at least one row matches. -/
def securityQuotesExist (store : Store) (secId : String) (date : Nat)
    (interval : QuotesInterval) : Bool :=
  store.quotes.any (fun r =>
    decide (r.security = secId) && decide (r.begin = date) && decide (r.interv = interval))

/-- Row written by the bulk INSERT of `UpdateSecurityQuotes` (and of
`UpdateAllSecuritiesLastQuotes`) for one fetched quote: the security id and
interval come from the arguments, the remaining columns from the quote. -/
def mkQuoteRow (secId : String) (interval : QuotesInterval)
    (q : SecurityQuotes) : QuoteRow :=
  { security := secId, begin := q.begin, qend := q.qend, interv := interval
    openPrice := q.openPrice, closePrice := q.closePrice
    highPrice := q.highPrice, lowPrice := q.lowPrice }

/-- Predicate of the range DELETE in `UpdateSecurityQuotes`:
`security = ? AND begin >= ? AND begin <= ? AND interv = ?`. -/
def inReplaceRange (secId : String) (dateFrom dateTill : Nat)
    (interval : QuotesInterval) (r : QuoteRow) : Prop :=
  r.security = secId ∧ dateFrom ≤ r.begin ∧ r.begin ≤ dateTill ∧ r.interv = interval

instance (secId : String) (dateFrom dateTill : Nat) (interval : QuotesInterval)
    (r : QuoteRow) : Decidable (inReplaceRange secId dateFrom dateTill interval r) := by
  unfold inReplaceRange
  infer_instance

/-- UpdateSecurityQuotes mirrors the later implementation of
`securitiesSQL.UpdateSecurityQuotes`, with the series fetched from the market
data client passed as the parameter `fetchedAll`: check that the security
exists, keep the fetched quotes of the requested interval, return with no
store change if there are none, otherwise delete every persisted quote of
(security, interval) whose begin lies in [dateFrom, dateTill] and bulk-insert
every fetched quote. -/
def updateSecurityQuotes (store : Store) (secId : String) (sType : SecurityType)
    (dateFrom dateTill : Nat) (interval : QuotesInterval)
    (fetchedAll : List SecurityQuotes) : Except String Store :=
  match securityExists store secId sType with
  | .error e => .error e
  | .ok false => .error ("security " ++ secId ++ " does not exist")
  | .ok true =>
    let quotes := quotesOfInterval fetchedAll interval
    if quotes = [] then .ok store
    else
      .ok { store with
        quotes :=
          (store.quotes.filter
            (fun r => !decide (inReplaceRange secId dateFrom dateTill interval r))) ++
          quotes.map (mkQuoteRow secId interval) }

/-- Helper: `securityExists` reads only the `securities` table. -/
theorem securityExists_congr {s₁ s₂ : Store} (h : s₁.securities = s₂.securities)
    (id : String) (sType : SecurityType) :
    securityExists s₁ id sType = securityExists s₂ id sType := by
  unfold securityExists
  rw [h]

/-- C1: the store phase of `UpdateSecurityQuotes` (ReplaceRange) is
idempotent.  For every store, registered security, interval and date range,
and every fetched series whose quotes of the interval all have begin
timestamps within [dateFrom, dateTill], running the operation again on the
store it produced yields that same store. -/
theorem updateSecurityQuotes_idempotent (store store₁ : Store) (secId : String)
    (sType : SecurityType) (dateFrom dateTill : Nat) (interval : QuotesInterval)
    (fetchedAll : List SecurityQuotes)
    (hrange : ∀ q ∈ quotesOfInterval fetchedAll interval,
      dateFrom ≤ q.begin ∧ q.begin ≤ dateTill)
    (h1 : updateSecurityQuotes store secId sType dateFrom dateTill interval
      fetchedAll = .ok store₁) :
    updateSecurityQuotes store₁ secId sType dateFrom dateTill interval
      fetchedAll = .ok store₁ := by
  unfold updateSecurityQuotes at h1 ⊢
  cases hex : securityExists store secId sType with
  | error e => rw [hex] at h1; cases h1
  | ok b =>
    cases b with
    | false => rw [hex] at h1; cases h1
    | true =>
      rw [hex] at h1
      simp only at h1
      by_cases hq : quotesOfInterval fetchedAll interval = []
      · rw [if_pos hq] at h1
        have hstore : store = store₁ := by
          injection h1
        subst hstore
        rw [hex]
        simp only
        rw [if_pos hq]
      · rw [if_neg hq] at h1
        have hstore : store₁ =
            { store with
              quotes :=
                (store.quotes.filter
                  (fun r => !decide (inReplaceRange secId dateFrom dateTill interval r))) ++
                (quotesOfInterval fetchedAll interval).map (mkQuoteRow secId interval) } := by
          injection h1 with h1'
          exact h1'.symm
        have hsec : store₁.securities = store.securities := by rw [hstore]
        rw [securityExists_congr hsec, hex]
        simp only
        rw [if_neg hq]
        have hfilterA :
            (store.quotes.filter
              (fun r => !decide (inReplaceRange secId dateFrom dateTill interval r))).filter
              (fun r => !decide (inReplaceRange secId dateFrom dateTill interval r)) =
            store.quotes.filter
              (fun r => !decide (inReplaceRange secId dateFrom dateTill interval r)) := by
          rw [List.filter_filter]
          congr 1
          funext r
          cases hdec : decide (inReplaceRange secId dateFrom dateTill interval r) <;> simp [hdec]
        have hfilterB :
            ((quotesOfInterval fetchedAll interval).map (mkQuoteRow secId interval)).filter
              (fun r => !decide (inReplaceRange secId dateFrom dateTill interval r)) = [] := by
          rw [List.filter_eq_nil_iff]
          intro r hr
          obtain ⟨q, hq', rfl⟩ := List.mem_map.mp hr
          have hrq := hrange q hq'
          have : inReplaceRange secId dateFrom dateTill interval (mkQuoteRow secId interval q) :=
            ⟨rfl, hrq.1, hrq.2, rfl⟩
          simp [this]
        rw [hstore]
        simp only [List.filter_append, hfilterA, hfilterB, List.append_nil]

/-- Small store used as the concrete input of several witnesses: one
registered share and no persisted quotes. -/
def wStore : Store := ⟨[⟨"GAZP", "", "share", "RUB"⟩], []⟩

/-- Concrete fetched day quote used in witnesses. -/
def wQuote : SecurityQuotes := ⟨24, 5, 10, 1, 2, 3, 4⟩

/-- Store after one run of `UpdateSecurityQuotes` on `wStore` with `wQuote`. -/
def wStore1 : Store := ⟨[⟨"GAZP", "", "share", "RUB"⟩], [⟨"GAZP", 5, 10, 24, 1, 2, 3, 4⟩]⟩

/-- Witness for C1: a second run over the store produced by the first run
leaves it unchanged, at a concrete store and fetched series. -/
theorem updateSecurityQuotes_idempotent_witness :
    updateSecurityQuotes wStore1 "GAZP" "share" 0 100 24 [wQuote] = .ok wStore1 :=
  updateSecurityQuotes_idempotent wStore wStore1 "GAZP" "share" 0 100 24 [wQuote]
    (by decide) (by rfl)

/-- C2: if the fetched series contains no quote of the requested interval,
`UpdateSecurityQuotes` performs no delete and no insert: the store (including
every persisted quote whose begin lies in [dateFrom, dateTill]) is returned
unchanged and the call reports no error. -/
theorem updateSecurityQuotes_empty_fetch_noop (store : Store) (secId : String)
    (sType : SecurityType) (dateFrom dateTill : Nat) (interval : QuotesInterval)
    (fetchedAll : List SecurityQuotes)
    (hreg : securityExists store secId sType = .ok true)
    (hempty : quotesOfInterval fetchedAll interval = []) :
    updateSecurityQuotes store secId sType dateFrom dateTill interval
      fetchedAll = .ok store := by
  unfold updateSecurityQuotes
  rw [hreg]
  simp only
  rw [if_pos hempty]

/-- Witness for C2: with an empty fetched series, a store holding one quote
in the target range is returned unchanged. -/
theorem updateSecurityQuotes_empty_fetch_noop_witness :
    updateSecurityQuotes wStore1 "GAZP" "share" 0 100 24 [] = .ok wStore1 :=
  updateSecurityQuotes_empty_fetch_noop wStore1 "GAZP" "share" 0 100 24 []
    (by rfl) (by rfl)

/-! ## Snapshot upsert: `UpdateAllSecuritiesLastQuotes` -/

/-- Loop of the later `securitiesSQL.UpdateAllSecuritiesLastQuotes` building
the batched INSERT: for each security (paired with the in-memory day quotes
fetched for it), take its `LastQuotes(IntervalDay)`; skip it when a row with
the same (security, begin, interval=day) key already exists in the store,
otherwise append the row to the batch.  Every existence check runs against
the store as it was before the single INSERT issued at the end. -/
def snapshotInserts (store : Store) :
    List (String × List SecurityQuotes) → List QuoteRow
  | [] => []
  | (sid, qs) :: rest =>
    let q := lastQuotes qs intervalDay
    if securityQuotesExist store sid q.begin intervalDay then
      snapshotInserts store rest
    else
      mkQuoteRow sid intervalDay q :: snapshotInserts store rest

/-- Store phase of `UpdateAllSecuritiesLastQuotes`: append the batch built by
`snapshotInserts` to the `security_quotes` table.  When the batch is empty
the code returns before the INSERT, which also leaves the store unchanged. -/
def updateAllSecuritiesLastQuotes (store : Store)
    (fetched : List (String × List SecurityQuotes)) : Store :=
  { store with quotes := store.quotes ++ snapshotInserts store fetched }

/-- C5: the daily-snapshot upsert never deletes or modifies a persisted
quote.  For every store and every set of securities with fetched day quotes,
the prior `security_quotes` rows survive unchanged (they form a prefix of the
result), the `securities` table is untouched, and the appended batch consists
of exactly the fetched day quotes whose (security, begin, interval=day) key
was absent from the store — the ones whose key already existed are skipped. -/
theorem updateAllSecuritiesLastQuotes_additive (store : Store)
    (fetched : List (String × List SecurityQuotes)) :
    (updateAllSecuritiesLastQuotes store fetched).securities = store.securities ∧
    store.quotes <+: (updateAllSecuritiesLastQuotes store fetched).quotes ∧
    (∀ r ∈ store.quotes, r ∈ (updateAllSecuritiesLastQuotes store fetched).quotes) ∧
    (updateAllSecuritiesLastQuotes store fetched).quotes =
      store.quotes ++
        (fetched.filter (fun p =>
          !securityQuotesExist store p.1 (lastQuotes p.2 intervalDay).begin intervalDay)).map
          (fun p => mkQuoteRow p.1 intervalDay (lastQuotes p.2 intervalDay)) := by
  refine ⟨rfl, ⟨snapshotInserts store fetched, rfl⟩,
    fun r hr => List.mem_append_left _ hr, ?_⟩
  unfold updateAllSecuritiesLastQuotes
  simp only
  congr 1
  induction fetched with
  | nil => rfl
  | cons p rest ih =>
    obtain ⟨sid, qs⟩ := p
    by_cases hex :
        securityQuotesExist store sid (lastQuotes qs intervalDay).begin intervalDay
    · simp [snapshotInserts, hex, ih]
    · simp [snapshotInserts, hex, ih]

/-- Witness for C5 at a concrete store and fetch: the prior rows survive. -/
theorem updateAllSecuritiesLastQuotes_additive_witness :
    (updateAllSecuritiesLastQuotes wStore1 [("GAZP", [wQuote])]).securities =
      wStore1.securities :=
  (updateAllSecuritiesLastQuotes_additive wStore1 [("GAZP", [wQuote])]).1

/-! ## Fan-out error collection: `collectErrors` -/

/-- Fold of `securitiesSQL.collectErrors` over the errors arriving on the
error channel, in arrival order: the first error becomes the aggregate and
every later one is appended after a newline; with no errors the final error
stays nil (`none`). -/
def collectErrorsFold : Option String → List String → Option String
  | acc, [] => acc
  | none, e :: es => collectErrorsFold (some e) es
  | some f, e :: es => collectErrorsFold (some (f ++ "\n" ++ e)) es

/-- Modelled effect of the goroutine fan-out in `GetSecuritiesData` and
`AddSecurities` (earlier implementation): one task per item runs the
per-item operation and sends its error, if any, to the error channel, so the
multiset of sent errors is exactly the errors of all items; the arrival
order at `collectErrors` is an arbitrary permutation of it. -/
def fanOutErrors {α : Type} (items : List α) (opErr : α → Option String) :
    List String :=
  items.filterMap opErr

/-- Helper: appending a string on either side keeps a message an infix. -/
theorem string_data_append (s t : String) : (s ++ t).data = s.data ++ t.data := rfl

/-- Helper for C6: once an aggregate error exists, the fold returns some
final error that contains the running aggregate and every later arrival. -/
theorem collectErrorsFold_some (es : List String) :
    ∀ f : String, ∃ fin, collectErrorsFold (some f) es = some fin ∧
      f.data <:+: fin.data ∧ ∀ m ∈ es, m.data <:+: fin.data := by
  induction es with
  | nil =>
    intro f
    exact ⟨f, rfl, List.infix_rfl, by simp⟩
  | cons e es ih =>
    intro f
    obtain ⟨fin, hfin, hagg, hall⟩ := ih (f ++ "\n" ++ e)
    have hdata : (f ++ "\n" ++ e).data = f.data ++ ("\n".data ++ e.data) := by
      rw [string_data_append, string_data_append, List.append_assoc]
    refine ⟨fin, hfin, ?_, ?_⟩
    · have h1 : f.data <:+: (f ++ "\n" ++ e).data := by
        rw [hdata]
        exact ⟨[], "\n".data ++ e.data, by simp⟩
      exact h1.trans hagg
    · intro m hm
      rcases List.mem_cons.mp hm with rfl | hm'
      · have h1 : m.data <:+: (f ++ "\n" ++ m).data := by
          rw [string_data_append]
          exact ⟨(f ++ "\n").data, [], by simp⟩
        exact h1.trans hagg
      · exact hall m hm'

/-- Helper for C6: for every collectErrors-based fan-out over N items, when
the per-item operation fails for every item the per-item work still reaches
the collector for all N items (the arrival list is a permutation of all
their errors) and the single aggregate error's message contains every one of
the N underlying error messages; when no item fails the aggregate error is
nil. -/
theorem collectErrorsFold_aggregates {α : Type} (items : List α)
    (opErr : α → Option String) (arrival : List String)
    (hperm : arrival.Perm (fanOutErrors items opErr)) :
    ((∀ i ∈ items, opErr i = none) → collectErrorsFold none arrival = none) ∧
    ((∀ i ∈ items, ∃ e, opErr i = some e) → items ≠ [] →
      ∃ fin, collectErrorsFold none arrival = some fin ∧
        ∀ i ∈ items, ∃ e, opErr i = some e ∧ e.data <:+: fin.data) := by
  constructor
  · intro hnone
    have hnil : fanOutErrors items opErr = [] := by
      unfold fanOutErrors
      rw [List.filterMap_eq_nil_iff]
      exact hnone
    rw [hnil] at hperm
    rw [hperm.eq_nil]
    rfl
  · intro hall hne
    have hmem_arrival : ∀ e, e ∈ fanOutErrors items opErr → e ∈ arrival :=
      fun e he => hperm.mem_iff.mpr he
    have harrne : arrival ≠ [] := by
      intro h
      rw [h] at hperm
      obtain ⟨i, hi⟩ := List.exists_mem_of_ne_nil items hne
      obtain ⟨e, he⟩ := hall i hi
      have hmem : e ∈ fanOutErrors items opErr :=
        List.mem_filterMap.mpr ⟨i, hi, he⟩
      rw [hperm.symm.eq_nil] at hmem
      exact absurd hmem (List.not_mem_nil e)
    obtain ⟨a, rest, rfl⟩ := List.exists_cons_of_ne_nil harrne
    obtain ⟨fin, hfin, hagg, hrest⟩ := collectErrorsFold_some rest a
    refine ⟨fin, hfin, fun i hi => ?_⟩
    obtain ⟨e, he⟩ := hall i hi
    have hmem : e ∈ a :: rest :=
      hmem_arrival e (List.mem_filterMap.mpr ⟨i, hi, he⟩)
    rcases List.mem_cons.mp hmem with rfl | hm'
    · exact ⟨e, he, hagg⟩
    · exact ⟨e, he, hrest e hm'⟩

/-- AddSecuritiesLoop mirrors the batch-building loop of the later
implementation of `securitiesSQL.AddSecurities`: the securities are checked
sequentially; a `SecurityExists` error is returned immediately, so the
remaining items are never examined; an already existing security is skipped;
every other security joins the batch with an unknown currency defaulted to
RUB.  The result is the list of rows of the single INSERT issued at the
end (none when the batch stayed empty). -/
def addSecuritiesLoop (store : Store) : List SecRow → Except String (List SecRow)
  | [] => .ok []
  | s :: rest =>
    match securityExists store s.id s.sType with
    | .error e => .error e
    | .ok true => addSecuritiesLoop store rest
    | .ok false =>
      match addSecuritiesLoop store rest with
      | .error e => .error e
      | .ok rows =>
        .ok ({ s with currency :=
          if s.currency = unknownCurrency then rubCurrency else s.currency } :: rows)

/-- AddSecurities mirrors the later implementation in `securitiesSQL`: run
the sequential batch-building loop and, when it reports no error, append the
batch to the `securities` table. -/
def addSecurities (store : Store) (secs : List SecRow) : Except String Store :=
  match addSecuritiesLoop store secs with
  | .error e => .error e
  | .ok rows => .ok { store with securities := store.securities ++ rows }

/-- Counterexample to C6 as frozen: the later `AddSecurities` — the
implementation the claim cites — checks securities sequentially and returns
the first `SecurityExists` error alone.  With two securities that both fail
validation, the first with an empty id and the second with an unknown type,
the returned error is exactly the first item's message, and the second
item's underlying message is not contained in it, so neither is the work
attempted for all items nor does the error aggregate all N messages. -/
theorem addSecurities_first_error_counterexample :
    addSecurities ⟨[], []⟩
        [⟨"", "n1", "share", "RUB"⟩, ⟨"X", "n2", "unknown", "RUB"⟩] =
      .error "security has no id" ∧
    ¬("security has no type or type is unknown".data <:+:
      "security has no id".data) := by
  constructor
  · rfl
  · intro h
    have hlen := h.length_le
    revert hlen
    decide

/-- C6 (amended): for every collectErrors-based fan-out over N items —
`GetSecuritiesData` over N securities and the earlier `AddSecurities` — when
the per-item operation fails for every item the per-item work still reaches
the collector for all N items and the single aggregate error's message
contains every one of the N underlying messages, while no failure yields a
nil error; the later `AddSecurities`, by contrast, validates sequentially
and returns the first `SecurityExists` error alone, leaving the remaining
items unexamined. -/
theorem fanOut_aggregates_all_later_addSecurities_stops_first {α : Type}
    (items : List α) (opErr : α → Option String) (arrival : List String)
    (store : Store) (s : SecRow) (rest : List SecRow) (e : String)
    (hperm : arrival.Perm (fanOutErrors items opErr))
    (hfail : securityExists store s.id s.sType = .error e) :
    ((∀ i ∈ items, opErr i = none) → collectErrorsFold none arrival = none) ∧
    ((∀ i ∈ items, ∃ e', opErr i = some e') → items ≠ [] →
      ∃ fin, collectErrorsFold none arrival = some fin ∧
        ∀ i ∈ items, ∃ e', opErr i = some e' ∧ e'.data <:+: fin.data) ∧
    addSecurities store (s :: rest) = .error e := by
  obtain ⟨h1, h2⟩ := collectErrorsFold_aggregates items opErr arrival hperm
  refine ⟨h1, h2, ?_⟩
  unfold addSecurities addSecuritiesLoop
  rw [hfail]

/-- Witness for C6 (amended) at concrete inputs: two failing items arriving
in reverse order still yield one aggregate containing both messages, and the
later `AddSecurities` on a security with an empty id returns that single
validation error. -/
theorem fanOut_aggregates_all_later_addSecurities_stops_first_witness :
    (∃ fin, collectErrorsFold none ["e2", "e1"] = some fin ∧
      ∀ i ∈ ["e1", "e2"], ∃ e', some i = some e' ∧ e'.data <:+: fin.data) ∧
    addSecurities ⟨[], []⟩ [⟨"", "n", "share", "RUB"⟩] =
      .error "security has no id" := by
  have h := fanOut_aggregates_all_later_addSecurities_stops_first
    ["e1", "e2"] some ["e2", "e1"] ⟨[], []⟩ ⟨"", "n", "share", "RUB"⟩ []
    "security has no id" (by decide) (by rfl)
  exact ⟨h.2.1 (fun i _ => ⟨i, rfl⟩) (by decide), h.2.2⟩

/-! ## Analytics: the change-derivation loop of `getSecurityDataHandler` -/

/-- Loop of `getSecurityDataHandler` (main.go) deriving day and total change.
A quote whose end falls outside [dateFrom, dateTill] is skipped without
touching the running state.  For a retained quote the total change is
computed against `startPrice` when it is nonzero (otherwise it is 0 and the
quote's close becomes the start price), the day change against `prevPrice`
when it is nonzero (otherwise 0), and `prevPrice` always becomes the close. -/
def deriveLoop (dateFrom dateTill : Nat) :
    ℚ → ℚ → List SecurityQuotes → List (SecurityQuotes × ℚ × ℚ)
  | _, _, [] => []
  | startPrice, prevPrice, q :: qs =>
    if q.qend < dateFrom ∨ dateTill < q.qend then
      deriveLoop dateFrom dateTill startPrice prevPrice qs
    else
      (q,
        (if prevPrice ≠ 0 then (q.closePrice - prevPrice) / prevPrice * 100 else 0),
        (if startPrice ≠ 0 then (q.closePrice - startPrice) / startPrice * 100 else 0)) ::
        deriveLoop dateFrom dateTill
          (if startPrice ≠ 0 then startPrice else q.closePrice) q.closePrice qs

/-- DeriveChanges: the loop with both running prices starting at 0. -/
def deriveChanges (qs : List SecurityQuotes) (dateFrom dateTill : Nat) :
    List (SecurityQuotes × ℚ × ℚ) :=
  deriveLoop dateFrom dateTill 0 0 qs

/-- Window filter of the loop: the quote's end lies in [dateFrom, dateTill]. -/
def inWindow (dateFrom dateTill : Nat) (q : SecurityQuotes) : Bool :=
  decide (dateFrom ≤ q.qend) && decide (q.qend ≤ dateTill)

/-- Day-change formula in the words of the spec:
`(close - prevClose) / prevClose * 100`, 0 if prevClose is 0. -/
def specDayChange (prevClose close : ℚ) : ℚ :=
  if prevClose = 0 then 0 else (close - prevClose) / prevClose * 100

/-- Total-change formula in the words of the spec:
`(close - baseline) / baseline * 100`, 0 while the baseline is 0. -/
def specTotalChange (baseline close : ℚ) : ℚ :=
  if baseline = 0 then 0 else (close - baseline) / baseline * 100

/-- Change sequence in the words of the spec: each retained close yields its
day change against the previous retained close and its total change against
the baseline, the close becoming the baseline while the baseline is 0. -/
def specChanges (baseline prev : ℚ) : List ℚ → List (ℚ × ℚ)
  | [] => []
  | c :: cs =>
    (specDayChange prev c, specTotalChange baseline c) ::
      specChanges (if baseline = 0 then c else baseline) c cs

/-- Helper for C3: the code loop retains exactly the window quotes in order
and computes, for any running prices, the spec's change sequence. -/
theorem deriveLoop_eq_specChanges (dateFrom dateTill : Nat)
    (qs : List SecurityQuotes) :
    ∀ startPrice prevPrice : ℚ,
      (deriveLoop dateFrom dateTill startPrice prevPrice qs).map Prod.fst =
        qs.filter (inWindow dateFrom dateTill) ∧
      (deriveLoop dateFrom dateTill startPrice prevPrice qs).map Prod.snd =
        specChanges startPrice prevPrice
          ((qs.filter (inWindow dateFrom dateTill)).map (fun q => q.closePrice)) := by
  induction qs with
  | nil => intro s p; exact ⟨rfl, rfl⟩
  | cons q qs ih =>
    intro s p
    by_cases hskip : q.qend < dateFrom ∨ dateTill < q.qend
    · have hw : inWindow dateFrom dateTill q = false := by
        unfold inWindow
        rcases hskip with h | h
        · simp [Nat.not_le.mpr h]
        · simp [Nat.not_le.mpr h]
      have hloop : deriveLoop dateFrom dateTill s p (q :: qs) =
          deriveLoop dateFrom dateTill s p qs := by
        rw [deriveLoop, if_pos hskip]
      have hfil : (q :: qs).filter (inWindow dateFrom dateTill) =
          qs.filter (inWindow dateFrom dateTill) := by
        simp [List.filter_cons, hw]
      rw [hloop, hfil]
      exact ih s p
    · push_neg at hskip
      have hw : inWindow dateFrom dateTill q = true := by
        unfold inWindow
        simp [hskip.1, hskip.2]
      have hloop : deriveLoop dateFrom dateTill s p (q :: qs) =
          (q,
            (if p ≠ 0 then (q.closePrice - p) / p * 100 else 0),
            (if s ≠ 0 then (q.closePrice - s) / s * 100 else 0)) ::
            deriveLoop dateFrom dateTill
              (if s ≠ 0 then s else q.closePrice) q.closePrice qs := by
        rw [deriveLoop, if_neg (by push_neg; exact hskip)]
      have hfil : (q :: qs).filter (inWindow dateFrom dateTill) =
          q :: qs.filter (inWindow dateFrom dateTill) := by
        simp [List.filter_cons, hw]
      obtain ⟨ihfst, ihsnd⟩ := ih (if s ≠ 0 then s else q.closePrice) q.closePrice
      constructor
      · rw [hloop, hfil, List.map_cons, ihfst]
      · rw [hloop, hfil, List.map_cons, List.map_cons, specChanges, ihsnd]
        have hday : (if p ≠ 0 then (q.closePrice - p) / p * 100 else 0) =
            specDayChange p q.closePrice := by
          unfold specDayChange
          by_cases hp : p = 0 <;> simp [hp]
        have htot : (if s ≠ 0 then (q.closePrice - s) / s * 100 else 0) =
            specTotalChange s q.closePrice := by
          unfold specTotalChange
          by_cases hs : s = 0 <;> simp [hs]
        have hbase : (if s ≠ 0 then s else q.closePrice) =
            (if s = 0 then q.closePrice else s) := by
          by_cases hs : s = 0 <;> simp [hs]
        rw [hday, htot, hbase]

/-- C3: `DeriveChanges` retains exactly the quotes whose end falls inside the
window, in order, and its change pairs are the spec's sequence: the first
retained quote gets day and total change 0 and its close becomes the
baseline, each later quote gets `dayChange = (close - prevClose)/prevClose *
100` (0 if prevClose is 0) and `totalChange = (close - baseline)/baseline *
100` (0 while the baseline is 0) — a zero divisor always yields 0.  On close
prices [100, 110, 99] the day changes are [0, 10, -10] and the total changes
[0, 10, -1]. -/
theorem deriveChanges_correct (qs : List SecurityQuotes)
    (dateFrom dateTill : Nat) :
    ((deriveChanges qs dateFrom dateTill).map Prod.fst =
      qs.filter (inWindow dateFrom dateTill)) ∧
    ((deriveChanges qs dateFrom dateTill).map Prod.snd =
      specChanges 0 0 ((qs.filter (inWindow dateFrom dateTill)).map
        (fun q => q.closePrice))) ∧
    ((deriveChanges
        [⟨24, 1, 2, 0, 100, 0, 0⟩, ⟨24, 3, 4, 0, 110, 0, 0⟩,
          ⟨24, 5, 6, 0, 99, 0, 0⟩] 0 10).map Prod.snd =
      [(0, 0), (10, 10), (-10, -1)]) := by
  obtain ⟨h1, h2⟩ := deriveLoop_eq_specChanges dateFrom dateTill qs 0 0
  refine ⟨h1, h2, ?_⟩
  norm_num [deriveChanges, deriveLoop]

/-- Witness for C3: the concrete example of the claim, extracted by applying
the theorem. -/
theorem deriveChanges_correct_witness :
    (deriveChanges
        [⟨24, 1, 2, 0, 100, 0, 0⟩, ⟨24, 3, 4, 0, 110, 0, 0⟩,
          ⟨24, 5, 6, 0, 99, 0, 0⟩] 0 10).map Prod.snd =
      [(0, 0), (10, 10), (-10, -1)] :=
  (deriveChanges_correct [] 0 0).2.2

/-! ## Analytics: `RankPeriodChange` of `securityListHandler` -/

/-- SecPrices mirrors the struct `secPrices` of `securityListHandler`. -/
structure SecPrices where
  id : String
  priceBegin : ℚ
  priceEnd : ℚ
  change : ℚ
  deriving DecidableEq

/-- Rounding of Go's `math.Round` (round half away from zero) on ℚ. -/
def goRound (x : ℚ) : ℚ :=
  if x < 0 then -((⌊-x + 1/2⌋ : ℤ) : ℚ) else ((⌊x + 1/2⌋ : ℤ) : ℚ)

/-- Per-security record of `securityListHandler`:
`change = math.Round((priceEnd - priceBegin)/priceBegin*10000)/100` when the
opening price is positive, else 0. -/
def mkSecPrices (id : String) (priceBegin priceEnd : ℚ) : SecPrices :=
  { id := id, priceBegin := priceBegin, priceEnd := priceEnd
    change := if priceBegin > 0 then
        goRound ((priceEnd - priceBegin) / priceBegin * 10000) / 100
      else 0 }

/-- Order of the final `sort.Slice`: ascending change, ties broken by
ascending security id. -/
def secPricesLE (a b : SecPrices) : Prop :=
  a.change < b.change ∨ (a.change = b.change ∧ a.id ≤ b.id)

instance : DecidableRel secPricesLE := fun a b => by
  unfold secPricesLE
  infer_instance

instance : IsTotal SecPrices secPricesLE where
  total a b := by
    unfold secPricesLE
    rcases lt_trichotomy a.change b.change with h | h | h
    · exact Or.inl (Or.inl h)
    · rcases le_total a.id b.id with hid | hid
      · exact Or.inl (Or.inr ⟨h, hid⟩)
      · exact Or.inr (Or.inr ⟨h.symm, hid⟩)
    · exact Or.inr (Or.inl h)

instance : IsTrans SecPrices secPricesLE where
  trans a b c hab hbc := by
    unfold secPricesLE at hab hbc ⊢
    rcases hab with h1 | ⟨h1, h1'⟩ <;> rcases hbc with h2 | ⟨h2, h2'⟩
    · exact Or.inl (h1.trans h2)
    · exact Or.inl (h2 ▸ h1)
    · exact Or.inl (h1 ▸ h2)
    · exact Or.inr ⟨h1.trans h2, h1'.trans h2'⟩

/-- RankPeriodChange: per-security open/close pairs are turned into
`secPrices` records (the fan-out may complete them in any order; the input
list is that completion order) and sorted by ascending change, ties by id. -/
def rankPeriodChange (inputs : List (String × ℚ × ℚ)) : List SecPrices :=
  (inputs.map (fun p => mkSecPrices p.1 p.2.1 p.2.2)).insertionSort secPricesLE

/-- C8: `RankPeriodChange` returns a permutation of the per-security records,
sorted ascending by change with ties broken by id ascending, where each
record's change is `round((close - open)/open * 10000)/100` when open > 0 and
0 otherwise; A(open=10, close=12) and B(open=50, close=45) get changes 20 and
-10 and ranked order [B, A]. -/
theorem rankPeriodChange_correct (inputs : List (String × ℚ × ℚ)) :
    (rankPeriodChange inputs).Perm
      (inputs.map (fun p => mkSecPrices p.1 p.2.1 p.2.2)) ∧
    List.Sorted secPricesLE (rankPeriodChange inputs) ∧
    (∀ r ∈ rankPeriodChange inputs,
      r.change = if r.priceBegin > 0 then
          goRound ((r.priceEnd - r.priceBegin) / r.priceBegin * 10000) / 100
        else 0) ∧
    rankPeriodChange [("A", 10, 12), ("B", 50, 45)] =
      [⟨"B", 50, 45, -10⟩, ⟨"A", 10, 12, 20⟩] := by
  refine ⟨List.perm_insertionSort _ _, List.sorted_insertionSort _ _, ?_, ?_⟩
  · intro r hr
    have hr' : r ∈ inputs.map (fun p => mkSecPrices p.1 p.2.1 p.2.2) :=
      (List.perm_insertionSort _ _).subset hr
    obtain ⟨p, hp, rfl⟩ := List.mem_map.mp hr'
    rfl
  · norm_num [rankPeriodChange, mkSecPrices, goRound, List.insertionSort,
      List.orderedInsert, secPricesLE]

/-- Witness for C8: the concrete ranking example of the claim, extracted by
applying the theorem. -/
theorem rankPeriodChange_correct_witness :
    rankPeriodChange [("A", 10, 12), ("B", 50, 45)] =
      [⟨"B", 50, 45, -10⟩, ⟨"A", 10, 12, 20⟩] :=
  (rankPeriodChange_correct []).2.2.2

/-! ## Series assembly: sortedness and natural-key uniqueness (C4) -/

/-- Quote built by the row-scan goroutine of `GetSecurityData` from one
persisted `security_quotes` row. -/
def rowToQuotes (r : QuoteRow) : SecurityQuotes :=
  { interval := r.interv, begin := r.begin, qend := r.qend
    openPrice := r.openPrice, closePrice := r.closePrice
    highPrice := r.highPrice, lowPrice := r.lowPrice }

/-- Order of the final `sort.Slice` in `GetSecurityData` and in
`moex.GetSecurityQuotes`: ascending begin timestamp. -/
def beginLE (a b : SecurityQuotes) : Prop :=
  a.begin ≤ b.begin

instance : DecidableRel beginLE := fun a b => by
  unfold beginLE
  infer_instance

instance : IsTotal SecurityQuotes beginLE :=
  ⟨fun a b => Nat.le_total a.begin b.begin⟩

instance : IsTrans SecurityQuotes beginLE :=
  ⟨fun _ _ _ => Nat.le_trans⟩

/-- Shared tail of `GetSecurityData` and `moex.GetSecurityQuotes`: the quotes
produced by the concurrent per-row tasks, in their arbitrary arrival order,
are sorted ascending by begin before being handed to the caller. -/
def assembleSeries (arrived : List SecurityQuotes) : List SecurityQuotes :=
  arrived.insertionSort beginLE

/-- No two quotes of one series share the same begin timestamp for the same
interval (the natural key of `security_quotes`). -/
def distinctKeys (l : List SecurityQuotes) : Prop :=
  l.Pairwise (fun a b => ¬(a.interval = b.interval ∧ a.begin = b.begin))

/-- Rows scanned by `GetSecurityData` for one security: every persisted quote
of that security (`SELECT ... FROM security_quotes WHERE security = ?`). -/
def loadedQuotes (store : Store) (secId : String) : List SecurityQuotes :=
  (store.quotes.filter (fun r => decide (r.security = secId))).map rowToQuotes

/-- Primary-key invariant of the `security_quotes` table:
`PRIMARY KEY (security, begin, interv)`. -/
def storeKeysUnique (store : Store) : Prop :=
  store.quotes.Pairwise
    (fun a b => ¬(a.security = b.security ∧ a.begin = b.begin ∧ a.interv = b.interv))

/-- Helper: the natural-key distinctness predicate is symmetric, so it
transfers across permutations. -/
theorem distinctKeys_of_perm {l₁ l₂ : List SecurityQuotes} (h : l₁.Perm l₂)
    (hd : distinctKeys l₁) : distinctKeys l₂ := by
  unfold distinctKeys at hd ⊢
  have hsymm : Symmetric
      (fun a b : SecurityQuotes => ¬(a.interval = b.interval ∧ a.begin = b.begin)) :=
    fun _ _ hab h' => hab ⟨h'.1.symm, h'.2.symm⟩
  exact (h.pairwise_iff @hsymm).mp hd

/-- Helper: the rows loaded for one security have pairwise distinct
(interval, begin) keys whenever the store satisfies its primary key. -/
theorem loadedQuotes_distinctKeys (store : Store) (secId : String)
    (hstore : storeKeysUnique store) : distinctKeys (loadedQuotes store secId) := by
  unfold distinctKeys loadedQuotes
  rw [List.pairwise_map]
  have h1 : (store.quotes.filter (fun r => decide (r.security = secId))).Pairwise
      (fun a b => ¬(a.security = b.security ∧ a.begin = b.begin ∧ a.interv = b.interv)) :=
    hstore.filter _
  refine List.Pairwise.imp_of_mem ?_ h1
  intro a b ha hb hab hk
  have ha' : a.security = secId := of_decide_eq_true ((List.mem_filter.mp ha).2)
  have hb' : b.security = secId := of_decide_eq_true ((List.mem_filter.mp hb).2)
  exact hab ⟨ha'.trans hb'.symm, hk.2, hk.1⟩

/-- C4: after loading persisted history (`GetSecurityData`) and after fetching
a series (`moex.GetSecurityQuotes`, on the fresh security every caller passes
it), the quote list is sorted ascending by begin timestamp and no two quotes
share the same begin for the same interval — regardless of the arrival order
of the concurrent per-row tasks.  For the load path the key uniqueness comes
from the store's primary key; for the fetch path from distinctness of the
begins in the provider payload (all fetched quotes carry the requested
interval). -/
theorem assembled_series_sorted_and_unique (store : Store) (secId : String)
    (arrivedLoad : List SecurityQuotes) (fetched : List SecurityQuotes)
    (arrivedFetch : List SecurityQuotes)
    (hstore : storeKeysUnique store)
    (hload : arrivedLoad.Perm (loadedQuotes store secId))
    (hfetch : arrivedFetch.Perm fetched)
    (hfetchKeys : distinctKeys fetched) :
    (List.Sorted beginLE (assembleSeries arrivedLoad) ∧
      distinctKeys (assembleSeries arrivedLoad)) ∧
    (List.Sorted beginLE (assembleSeries arrivedFetch) ∧
      distinctKeys (assembleSeries arrivedFetch)) := by
  have hsortL : List.Sorted beginLE (assembleSeries arrivedLoad) :=
    List.sorted_insertionSort _ _
  have hsortF : List.Sorted beginLE (assembleSeries arrivedFetch) :=
    List.sorted_insertionSort _ _
  have hpermL : (assembleSeries arrivedLoad).Perm (loadedQuotes store secId) :=
    (List.perm_insertionSort _ _).trans hload
  have hpermF : (assembleSeries arrivedFetch).Perm fetched :=
    (List.perm_insertionSort _ _).trans hfetch
  exact ⟨⟨hsortL, distinctKeys_of_perm hpermL.symm
      (loadedQuotes_distinctKeys store secId hstore)⟩,
    ⟨hsortF, distinctKeys_of_perm hpermF.symm hfetchKeys⟩⟩

/-- Witness for C4 at a concrete store and payload: the assembled series of
the one-quote store and of a two-quote fetch arriving in reverse order. -/
theorem assembled_series_sorted_and_unique_witness :
    List.Sorted beginLE (assembleSeries [⟨24, 7, 8, 0, 1, 0, 0⟩, wQuote]) ∧
      distinctKeys (assembleSeries [⟨24, 7, 8, 0, 1, 0, 0⟩, wQuote]) :=
  (assembled_series_sorted_and_unique wStore1 "GAZP" (loadedQuotes wStore1 "GAZP")
    [wQuote, ⟨24, 7, 8, 0, 1, 0, 0⟩] [⟨24, 7, 8, 0, 1, 0, 0⟩, wQuote]
    (by unfold storeKeysUnique wStore1; simp)
    (List.Perm.refl _)
    (by decide)
    (by unfold distinctKeys wQuote; simp)).2

/-! ## Market-data snapshot pagination: `moex.GetQuotesForDate` (C7) -/

/-- Offsets fetched by the paging loop of `GetQuotesForDate` for one
instrument class on one day, starting from a given offset.  The loop guard
`start < 1000` with step 100 allows at most 10 iterations, which the fuel
argument mirrors exactly; the loop fetches the page at the current offset
and stops after it when the page is empty (at offset 0 the function instead
recurses to the previous day, which equally fetches no further page for this
class on this day). -/
def visitOffsetsFuel {α : Type} (page : Nat → List α) : Nat → Nat → List Nat
  | 0, _ => []
  | fuel + 1, start =>
    if start < 1000 then
      if (page start).isEmpty then [start]
      else start :: visitOffsetsFuel page fuel (start + 100)
    else []

/-- Offsets fetched by the paging loop from its initial offset 0. -/
def visitOffsets {α : Type} (page : Nat → List α) : List Nat :=
  visitOffsetsFuel page 10 0

/-- One day's processing of `GetQuotesForDate` recurses to the previous
calendar day exactly when some requested instrument class's page at offset 0
is empty. -/
def goesToPrevDay {α : Type} (classes : List SecurityType)
    (page : SecurityType → Int → Nat → List α) (d : Int) : Bool :=
  classes.any (fun c => (page c d 0).isEmpty)

/-- Day recursion of `GetQuotesForDate` with explicit fuel: the result is the
day on which a full, non-recursing pass completes, or `none` when the fuel
runs out before such a day is reached. -/
def getQuotesRun {α : Type} (classes : List SecurityType)
    (page : SecurityType → Int → Nat → List α) : Nat → Int → Option Int
  | 0, _ => none
  | fuel + 1, d =>
    if goesToPrevDay classes page d then getQuotesRun classes page fuel (d - 1)
    else some d

/-- Helper for C7: every visited offset lies between the start offset and
1000 and is reached from the start in steps of 100. -/
theorem visitOffsetsFuel_bounds {α : Type} (page : Nat → List α) :
    ∀ fuel start, ∀ off ∈ visitOffsetsFuel page fuel start,
      start ≤ off ∧ off < 1000 ∧ (off - start) % 100 = 0 := by
  intro fuel
  induction fuel with
  | zero =>
    intro start off hoff
    exact absurd hoff (List.not_mem_nil off)
  | succ fuel ih =>
    intro start off hoff
    rw [visitOffsetsFuel] at hoff
    by_cases h1000 : start < 1000
    · rw [if_pos h1000] at hoff
      by_cases hemp : (page start).isEmpty = true
      · rw [if_pos hemp] at hoff
        obtain rfl := List.mem_singleton.mp hoff
        exact ⟨le_refl _, h1000, by omega⟩
      · rw [if_neg hemp] at hoff
        rcases List.mem_cons.mp hoff with rfl | h'
        · exact ⟨le_refl _, h1000, by omega⟩
        · obtain ⟨hs, hlt, hmod⟩ := ih (start + 100) off h'
          exact ⟨by omega, hlt, by omega⟩
    · rw [if_neg h1000] at hoff
      exact absurd hoff (List.not_mem_nil off)

/-- Helper for C7: a class's paging stops at the first empty page — every
visited offset strictly before another visited offset had a non-empty page. -/
theorem visitOffsetsFuel_stop {α : Type} (page : Nat → List α) :
    ∀ fuel start off off', off ∈ visitOffsetsFuel page fuel start →
      off' ∈ visitOffsetsFuel page fuel start → off < off' →
      (page off).isEmpty = false := by
  intro fuel
  induction fuel with
  | zero =>
    intro start off off' hoff
    exact absurd hoff (List.not_mem_nil off)
  | succ fuel ih =>
    intro start off off' hoff hoff' hlt
    rw [visitOffsetsFuel] at hoff hoff'
    by_cases h1000 : start < 1000
    · rw [if_pos h1000] at hoff hoff'
      by_cases hemp : (page start).isEmpty = true
      · rw [if_pos hemp] at hoff hoff'
        obtain rfl := List.mem_singleton.mp hoff
        obtain rfl := List.mem_singleton.mp hoff'
        omega
      · rw [if_neg hemp] at hoff hoff'
        rcases List.mem_cons.mp hoff with rfl | h'
        · exact Bool.not_eq_true _ ▸ eq_false_of_ne_true hemp
        · rcases List.mem_cons.mp hoff' with rfl | h''
          · obtain ⟨hs, -, -⟩ := visitOffsetsFuel_bounds page fuel (off' + 100) off h'
            omega
          · exact ih (start + 100) off off' h' h'' hlt
    · rw [if_neg h1000] at hoff
      exact absurd hoff (List.not_mem_nil off)

/-- Helper for C7: the start offset itself is always visited while the guard
holds and fuel remains. -/
theorem visitOffsetsFuel_self {α : Type} (page : Nat → List α) (fuel start : Nat)
    (h1 : start < 1000) (h2 : 1 ≤ fuel) :
    start ∈ visitOffsetsFuel page fuel start := by
  cases fuel with
  | zero => omega
  | succ fuel =>
    rw [visitOffsetsFuel, if_pos h1]
    by_cases hemp : (page start).isEmpty = true
    · rw [if_pos hemp]
      exact List.mem_singleton.mpr rfl
    · rw [if_neg hemp]
      exact List.mem_cons_self _ _

/-- Helper for C7: after a visited offset with a non-empty page, the next
offset (one step of 100 within the bound) is visited as well. -/
theorem visitOffsetsFuel_next {α : Type} (page : Nat → List α) :
    ∀ fuel start off, 1000 ≤ start + 100 * fuel →
      off ∈ visitOffsetsFuel page fuel start → (page off).isEmpty = false →
      off + 100 < 1000 → off + 100 ∈ visitOffsetsFuel page fuel start := by
  intro fuel
  induction fuel with
  | zero =>
    intro start off hfuel hoff
    exact absurd hoff (List.not_mem_nil off)
  | succ fuel ih =>
    intro start off hfuel hoff hne hlt
    rw [visitOffsetsFuel] at hoff ⊢
    by_cases h1000 : start < 1000
    · rw [if_pos h1000] at hoff ⊢
      by_cases hemp : (page start).isEmpty = true
      · rw [if_pos hemp] at hoff
        obtain rfl := List.mem_singleton.mp hoff
        rw [hne] at hemp
        cases hemp
      · rw [if_neg hemp] at hoff ⊢
        rcases List.mem_cons.mp hoff with rfl | h'
        · have hfuel1 : 1 ≤ fuel := by omega
          exact List.mem_cons_of_mem _
            (visitOffsetsFuel_self page fuel (off + 100) hlt hfuel1)
        · exact List.mem_cons_of_mem _
            (ih (start + 100) off (by omega) h' hne hlt)
    · rw [if_neg h1000] at hoff
      exact absurd hoff (List.not_mem_nil off)

/-- Helper for C7: if some calendar day k days before d has a first page that
is non-empty for every requested class, the day recursion reaches a
completing day within k + 1 steps. -/
theorem getQuotesRun_terminates {α : Type} (classes : List SecurityType)
    (pages : SecurityType → Int → Nat → List α) :
    ∀ (k : Nat) (d : Int), goesToPrevDay classes pages (d - k) = false →
      ∃ fuel r, getQuotesRun classes pages fuel d = some r := by
  intro k
  induction k with
  | zero =>
    intro d h
    simp only [Nat.cast_zero, sub_zero] at h
    exact ⟨1, d, by rw [getQuotesRun, if_neg (by simp [h])]⟩
  | succ k ih =>
    intro d h
    by_cases hd : goesToPrevDay classes pages d = true
    · have h' : goesToPrevDay classes pages (d - 1 - k) = false := by
        rw [show (d - (↑(k + 1) : ℤ)) = d - 1 - ↑k by push_cast; ring] at h
        exact h
      obtain ⟨fuel, r, hrun⟩ := ih (d - 1) h'
      exact ⟨fuel + 1, r, by rw [getQuotesRun, if_pos hd]; exact hrun⟩
    · simp only [Bool.not_eq_true] at hd
      exact ⟨1, d, by rw [getQuotesRun, if_neg (by simp [hd])]⟩

/-- C7: `GetQuotesForDate` pages each instrument class's daily-history
endpoint in steps of 100 up to offset 900 (offset 0 is always fetched, every
fetched offset is a multiple of 100 at most 900, paging continues past a
fetched offset exactly while its page is non-empty and the bound allows, and
it stops at the first empty non-initial page), one day's pass recurses on the
previous calendar day exactly when some class's page at offset 0 is empty,
and under the precondition that some calendar day on or before the requested
date yields a non-empty first page for every requested class the recursion
terminates with a completed pass. -/
theorem getQuotesForDate_pagination_and_termination {α : Type}
    (page1 : Nat → List α) (classes : List SecurityType)
    (pages : SecurityType → Int → Nat → List α) (d : Int) :
    (0 ∈ visitOffsets page1) ∧
    (∀ off ∈ visitOffsets page1, off % 100 = 0 ∧ off ≤ 900) ∧
    (∀ off off', off ∈ visitOffsets page1 → off' ∈ visitOffsets page1 →
      off < off' → (page1 off).isEmpty = false) ∧
    (∀ off ∈ visitOffsets page1, (page1 off).isEmpty = false → off + 100 ≤ 900 →
      off + 100 ∈ visitOffsets page1) ∧
    (∀ fuel, goesToPrevDay classes pages d = true →
      getQuotesRun classes pages (fuel + 1) d = getQuotesRun classes pages fuel (d - 1)) ∧
    ((∃ k : Nat, goesToPrevDay classes pages (d - k) = false) →
      ∃ fuel r, getQuotesRun classes pages fuel d = some r) := by
  refine ⟨?_, ?_, ?_, ?_, ?_, ?_⟩
  · exact visitOffsetsFuel_self page1 10 0 (by omega) (by omega)
  · intro off hoff
    obtain ⟨-, hlt, hmod⟩ := visitOffsetsFuel_bounds page1 10 0 off hoff
    omega
  · intro off off' hoff hoff' hlt
    exact visitOffsetsFuel_stop page1 10 0 off off' hoff hoff' hlt
  · intro off hoff hne hle
    exact visitOffsetsFuel_next page1 10 0 off (by omega) hoff hne (by omega)
  · intro fuel h
    rw [getQuotesRun, if_pos h]
  · rintro ⟨k, hk⟩
    exact getQuotesRun_terminates classes pages k d hk

/-- Witness for C7 at concrete inputs: the class list contains one type, the
provider always returns a non-empty first page, so the pass for the requested
day completes; and offset 0 is fetched for a concrete page function. -/
theorem getQuotesForDate_pagination_and_termination_witness :
    0 ∈ visitOffsets (fun _ => ([] : List Nat)) ∧
      ∃ fuel r, getQuotesRun ["share"] (fun _ _ _ => ([1] : List Nat)) fuel 5 = some r := by
  have h := getQuotesForDate_pagination_and_termination
    (fun _ => ([] : List Nat)) ["share"] (fun _ _ _ => ([1] : List Nat)) 5
  exact ⟨h.1, h.2.2.2.2.2 ⟨0, by rfl⟩⟩

end SecuritiesProject
